import Mathlib

/-!
Verification of the scored-entity cache core of the molecule-agent
repository: `DockingTool` (src/tools/docking_tool.py) and `CacheTool`
(src/tools/cache_tool.py).

Modelling conventions (shallow embedding):
* The persisted JSON cache document is an association list with Python
  dict semantics: `dinsert` replaces the value of an existing key in
  place and appends a new key at the end, exactly as CPython dicts
  preserve insertion order.
* A value stored in a target partition is a `JVal`: either a bare
  number (what `DockingTool.compute_scores` writes), JSON null, or a
  `{score, timestamp, computed}` record (what `CacheTool.save_results`
  writes).
* File I/O is modelled as explicit state passing: `_load_cache` returns
  the current store, `_save_cache` replaces it.  The `loads` field of
  `ComputeOutput` counts the `_load_cache` calls performed by one
  `compute_scores` call (the source performs exactly one, at the top of
  the function, unconditionally).
* External collaborators are parameters of `SEnv`: `pyHash` is Python's
  builtin `hash` on strings, which is salted per process
  (PYTHONHASHSEED), so it is a parameter of the process run, not a
  fixed function; `valid` is RDKit's `Chem.MolFromSmiles` succeeding;
  `loadTarget` is `dockstring.load_target` (`none` models a raised
  exception) and the loaded handle `String → Option ℚ` is `target.dock`
  (`none` models a per-molecule docking exception).
* Scores are rationals.  Python's `round(score, 1)` is modelled as
  rounding `score * 10` to the nearest integer and dividing by 10;
  Python rounds ties to even on binary floats while `round` here rounds
  ties up, a difference immaterial to every property proved below.
-/

namespace MolAgent

/-- Value stored for one molecule inside one target partition of the
persisted JSON cache document. -/
inductive JVal where
  | num (q : ℚ)
  | null
  | record (score : Option ℚ) (timestamp : String) (computed : Bool)
deriving DecidableEq

/-- Does a stored value have the `{score, timestamp, computed}` record
shape written by `CacheTool.save_results`? -/
def JVal.isRecord : JVal → Bool
  | JVal.record _ _ _ => true
  | _ => false

/-- The timestamp field of a stored value, when it has one. -/
def JVal.timestampOf : JVal → Option String
  | JVal.record _ ts _ => some ts
  | _ => none

/-- Association list with Python-dict semantics. -/
abbrev Dict (α : Type) := List (String × α)

/-- Dictionary lookup: first binding of the key. -/
def dfind {α : Type} : Dict α → String → Option α
  | [], _ => none
  | (k, v) :: rest, key => if k = key then some v else dfind rest key

/-- Dictionary update, Python style: replace the binding in place when
the key is present, append it at the end otherwise. -/
def dinsert {α : Type} : Dict α → String → α → Dict α
  | [], key, val => [(key, val)]
  | (k, v) :: rest, key, val =>
      if k = key then (k, val) :: rest else (k, v) :: dinsert rest key val

/-- The whole persisted document: target name to partition. -/
abbrev Store := Dict (Dict JVal)

/-- The partition of a target inside a store (empty when the target is
absent, as `cache[target_name]` after the lazy initialisation). -/
def partOf (store : Store) (target_name : String) : Dict JVal :=
  (dfind store target_name).getD []

/-- External collaborators of the core, fixed for one process run. -/
structure SEnv where
  pyHash : String → Int
  valid : String → Bool
  loadTarget : String → Option (String → Option ℚ)
  dockstringAvailable : Bool

/-- DockingTool.generate_mock_score: deterministic within one process
run, derived from Python's per-process-salted string hash. -/
def generate_mock_score (pyHash : String → Int) (smiles : String) : ℚ :=
  let hash_val : Int := pyHash smiles % 1000
  let score : ℚ := -3 - ((hash_val : ℚ) / 1000) * 9
  ((round (score * 10) : ℤ) : ℚ) / 10

/-- Score obtained for a valid uncached molecule: `target.dock` when a
real target handle is in use (falling back to the mock score when the
per-molecule dock call raises), the mock score otherwise. -/
def fresh_score (env : SEnv) (dock : Option (String → Option ℚ)) (smi : String) : ℚ :=
  match dock with
  | some d =>
      match d smi with
      | some s => s
      | none => generate_mock_score env.pyHash smi
  | none => generate_mock_score env.pyHash smi

/-- The target handle used by one `compute_scores` call: present only
when dockstring is importable and `load_target` did not raise. -/
def dockFor (env : SEnv) (target_name : String) : Option (String → Option ℚ) :=
  if env.dockstringAvailable then env.loadTarget target_name else none

/-- Mutable state of the per-molecule loop of `compute_scores`:
the in-memory partition `cache[target_name]`, the `results` dict, the
`cache_modified` flag, plus instrumentation recording the molecules for
which `target.dock` was invoked and the molecules served from cache. -/
structure LoopState where
  part : Dict JVal
  results : Dict JVal
  cache_modified : Bool
  backendCalls : List String
  hits : List String

/-- One iteration of the loop body of `DockingTool.compute_scores`. -/
def computeStep (env : SEnv) (dock : Option (String → Option ℚ))
    (st : LoopState) (smi : String) : LoopState :=
  match dfind st.part smi with
  | some v =>
      { st with results := dinsert st.results smi v, hits := st.hits ++ [smi] }
  | none =>
      if env.valid smi then
        let score := fresh_score env dock smi
        { part := dinsert st.part smi (JVal.num score),
          results := dinsert st.results smi (JVal.num score),
          cache_modified := true,
          backendCalls := st.backendCalls ++
            (match dock with | some _ => [smi] | none => []),
          hits := st.hits }
      else
        { st with results := dinsert st.results smi JVal.null }

/-- Observable outcome of one `compute_scores` call: the returned
mapping, the persisted document afterwards, and instrumentation
(`loads` counts `_load_cache` calls, `wrote` whether `_save_cache`
ran). -/
structure ComputeOutput where
  results : Dict JVal
  store : Store
  loads : Nat
  wrote : Bool
  backendCalls : List String
  hits : List String

/-- DockingTool.compute_scores.  Loads the document (always, once),
iterates the per-molecule loop, and saves the document only when
`cache_modified` was set. -/
def compute_scores (env : SEnv) (store : Store)
    (smiles_list : List String) (target_name : String) : ComputeOutput :=
  let dock := dockFor env target_name
  let fin := smiles_list.foldl (computeStep env dock)
    ⟨partOf store target_name, [], false, [], []⟩
  { results := fin.results,
    store := if fin.cache_modified then dinsert store target_name fin.part else store,
    loads := 1,
    wrote := fin.cache_modified,
    backendCalls := fin.backendCalls,
    hits := fin.hits }

/-- CacheTool target key: Python `target or "default"`. -/
def target_key : Option String → String
  | none => "default"
  | some s => if s = "" then "default" else s

/-- CacheTool.get_cached_results: the sub-dict of the requested
molecules present in the target partition. -/
def get_cached_results (store : Store) (molecules : List String)
    (target : Option String) : Dict JVal :=
  match dfind store (target_key target) with
  | none => []
  | some part =>
      molecules.foldl (fun acc mol =>
        match dfind part mol with
        | some v => dinsert acc mol v
        | none => acc) []

/-- CacheTool.get_cache_hit_rate. -/
def get_cache_hit_rate (store : Store) (molecules : List String)
    (target : Option String) : ℚ :=
  if molecules = [] then 0
  else ((get_cached_results store molecules target).length : ℚ) / (molecules.length : ℚ)

/-- CacheTool.save_results: upserts a `{score, timestamp, computed:
true}` record per entry of `results`; the `molecules` argument is
unused in the source.  `now` is `datetime.now().isoformat()`. -/
def save_results (now : String) (store : Store) (molecules : List String)
    (target : Option String) (results : List (String × Option ℚ)) : Store :=
  let tk := target_key target
  let part1 := results.foldl
    (fun p mv => dinsert p mv.1 (JVal.record mv.2 now true)) (partOf store tk)
  dinsert store tk part1

/-- The loop of `compute_scores` run to completion: the final state of
the per-molecule iteration starting from the freshly loaded partition
and empty results. -/
def runLoop (env : SEnv) (store : Store) (smiles_list : List String)
    (target_name : String) : LoopState :=
  smiles_list.foldl (computeStep env (dockFor env target_name))
    ⟨partOf store target_name, [], false, [], []⟩

/-- The value `compute_scores` resolves for a molecule given the final
in-memory partition: the stored value when present, JSON null
otherwise. -/
def valOf (part : Dict JVal) (k : String) : JVal :=
  (dfind part k).getD JVal.null

/-- Concrete environment: mock-score path (dockstring unavailable),
every SMILES valid, process hash = string length. -/
def envW : SEnv :=
  { pyHash := fun s => (s.length : Int),
    valid := fun _ => true,
    loadTarget := fun _ => none,
    dockstringAvailable := false }

/-- Concrete environment whose validator rejects the SMILES "xx". -/
def envX : SEnv :=
  { pyHash := fun _ => 0,
    valid := fun s => s != "xx",
    loadTarget := fun _ => none,
    dockstringAvailable := false }

theorem dfind_dinsert_self {α : Type} (d : Dict α) (k : String) (v : α) :
    dfind (dinsert d k v) k = some v := by
  induction d with
  | nil => simp [dinsert, dfind]
  | cons hd tl ih =>
      obtain ⟨a, b⟩ := hd
      by_cases h : a = k
      · simp [dinsert, dfind, h]
      · simp [dinsert, dfind, h, ih]

theorem dfind_dinsert_ne {α : Type} (d : Dict α) (k key : String) (v : α)
    (h : key ≠ k) : dfind (dinsert d k v) key = dfind d key := by
  induction d with
  | nil => simp [dinsert, dfind, Ne.symm h]
  | cons hd tl ih =>
      obtain ⟨a, b⟩ := hd
      by_cases hak : a = k
      · subst hak
        simp [dinsert, dfind, Ne.symm h]
      · by_cases hq : a = key
        · simp [dinsert, dfind, hak, hq, h]
        · simp [dinsert, dfind, hak, hq, ih]

theorem length_dinsert_le {α : Type} (d : Dict α) (k : String) (v : α) :
    (dinsert d k v).length ≤ d.length + 1 := by
  induction d with
  | nil => simp [dinsert]
  | cons hd tl ih =>
      obtain ⟨a, b⟩ := hd
      by_cases h : a = k
      · simp [dinsert, h]
      · simp only [dinsert, if_neg h, List.length_cons]
        omega

theorem step_part_persist (env : SEnv) (dock : Option (String → Option ℚ))
    (st : LoopState) (s k : String) (v : JVal) (h : dfind st.part k = some v) :
    dfind (computeStep env dock st s).part k = some v := by
  cases hs : dfind st.part s with
  | some w => simpa [computeStep, hs] using h
  | none =>
      by_cases hv : env.valid s
      · have hks : k ≠ s := by
          intro he
          rw [he, hs] at h
          cases h
        simpa [computeStep, hs, hv, dfind_dinsert_ne _ _ _ _ hks] using h
      · simpa [computeStep, hs, hv] using h

theorem foldl_part_persist (env : SEnv) (dock : Option (String → Option ℚ))
    (keys : List String) (st : LoopState) (k : String) (v : JVal)
    (h : dfind st.part k = some v) :
    dfind ((keys.foldl (computeStep env dock) st)).part k = some v := by
  induction keys generalizing st with
  | nil => simpa using h
  | cons s rest ih => exact ih _ (step_part_persist env dock st s k v h)

theorem step_results_self (env : SEnv) (dock : Option (String → Option ℚ))
    (st : LoopState) (s : String) :
    dfind (computeStep env dock st s).results s
      = some (valOf (computeStep env dock st s).part s) := by
  cases hs : dfind st.part s with
  | some w => simp [computeStep, hs, valOf, dfind_dinsert_self]
  | none =>
      by_cases hv : env.valid s
      · simp [computeStep, hs, hv, valOf, dfind_dinsert_self]
      · simp [computeStep, hs, hv, valOf, dfind_dinsert_self]

theorem step_results_preserve (env : SEnv) (dock : Option (String → Option ℚ))
    (st : LoopState) (s k : String) (hks : k ≠ s)
    (h : dfind st.results k = some (valOf st.part k)) :
    dfind (computeStep env dock st s).results k
      = some (valOf (computeStep env dock st s).part k) := by
  cases hs : dfind st.part s with
  | some w => simpa [computeStep, hs, dfind_dinsert_ne _ _ _ _ hks] using h
  | none =>
      by_cases hv : env.valid s
      · simpa [computeStep, hs, hv, valOf,
          dfind_dinsert_ne _ _ _ _ hks] using h
      · simpa [computeStep, hs, hv, dfind_dinsert_ne _ _ _ _ hks] using h

theorem foldl_results_preserve (env : SEnv) (dock : Option (String → Option ℚ))
    (keys : List String) (st : LoopState) (k : String)
    (h : dfind st.results k = some (valOf st.part k)) :
    dfind ((keys.foldl (computeStep env dock) st)).results k
      = some (valOf (keys.foldl (computeStep env dock) st).part k) := by
  induction keys generalizing st with
  | nil => simpa using h
  | cons s rest ih =>
      by_cases hks : k = s
      · subst hks
        exact ih _ (step_results_self env dock st k)
      · exact ih _ (step_results_preserve env dock st s k hks h)

theorem foldl_results_mem (env : SEnv) (dock : Option (String → Option ℚ))
    (keys : List String) (st : LoopState) (k : String) :
    k ∈ keys →
    dfind ((keys.foldl (computeStep env dock) st)).results k
      = some (valOf (keys.foldl (computeStep env dock) st).part k) := by
  induction keys generalizing st with
  | nil => intro hk; cases hk
  | cons s rest ih =>
      intro hk
      by_cases hks : k = s
      · subst hks
        exact foldl_results_preserve env dock rest _ k (step_results_self env dock st k)
      · rcases List.mem_cons.mp hk with he | hm
        · exact absurd he hks
        · exact ih _ hm

theorem foldl_results_notmem (env : SEnv) (dock : Option (String → Option ℚ))
    (keys : List String) (st : LoopState) (k : String) :
    k ∉ keys → dfind st.results k = none →
    dfind ((keys.foldl (computeStep env dock) st)).results k = none := by
  induction keys generalizing st with
  | nil => intro _ h; simpa using h
  | cons s rest ih =>
      intro hk h
      have hks : k ≠ s := fun he => hk (he ▸ List.mem_cons_self s rest)
      apply ih _ (fun hm => hk (List.mem_cons_of_mem s hm))
      cases hs : dfind st.part s with
      | some w => simpa [computeStep, hs, dfind_dinsert_ne _ _ _ _ hks] using h
      | none =>
          by_cases hv : env.valid s
          · simpa [computeStep, hs, hv, dfind_dinsert_ne _ _ _ _ hks] using h
          · simpa [computeStep, hs, hv, dfind_dinsert_ne _ _ _ _ hks] using h

theorem foldl_part_invalid (env : SEnv) (dock : Option (String → Option ℚ))
    (keys : List String) (st : LoopState) (k : String)
    (hv : env.valid k = false) :
    dfind st.part k = none →
    dfind ((keys.foldl (computeStep env dock) st)).part k = none := by
  induction keys generalizing st with
  | nil => intro h; simpa using h
  | cons s rest ih =>
      intro h
      apply ih _
      cases hs : dfind st.part s with
      | some w => simpa [computeStep, hs] using h
      | none =>
          by_cases hvs : env.valid s
          · have hks : k ≠ s := by
              intro he
              rw [he, hvs] at hv
              cases hv
            simpa [computeStep, hs, hvs, dfind_dinsert_ne _ _ _ _ hks] using h
          · simpa [computeStep, hs, hvs] using h

theorem foldl_backend_invalid (env : SEnv) (dock : Option (String → Option ℚ))
    (keys : List String) (st : LoopState) (k : String)
    (hv : env.valid k = false) :
    k ∉ st.backendCalls →
    k ∉ ((keys.foldl (computeStep env dock) st)).backendCalls := by
  induction keys generalizing st with
  | nil => intro h; simpa using h
  | cons s rest ih =>
      intro h
      apply ih _
      cases hs : dfind st.part s with
      | some w => simpa [computeStep, hs] using h
      | none =>
          by_cases hvs : env.valid s
          · have hks : k ≠ s := by
              intro he
              rw [he, hvs] at hv
              cases hv
            cases dock with
            | some d =>
                simp only [computeStep, hs, hvs, if_true]
                intro hmem
                rcases List.mem_append.mp hmem with h1 | h1
                · exact h h1
                · exact hks (List.mem_singleton.mp h1)
            | none => simpa [computeStep, hs, hvs] using h
          · simpa [computeStep, hs, hvs] using h

theorem step_modified_mono (env : SEnv) (dock : Option (String → Option ℚ))
    (st : LoopState) (s : String) (h : st.cache_modified = true) :
    (computeStep env dock st s).cache_modified = true := by
  cases hs : dfind st.part s with
  | some w => simpa [computeStep, hs] using h
  | none =>
      by_cases hvs : env.valid s
      · simp [computeStep, hs, hvs]
      · simpa [computeStep, hs, hvs] using h

theorem foldl_modified_mono (env : SEnv) (dock : Option (String → Option ℚ))
    (keys : List String) (st : LoopState) (h : st.cache_modified = true) :
    (keys.foldl (computeStep env dock) st).cache_modified = true := by
  induction keys generalizing st with
  | nil => simpa using h
  | cons s rest ih => exact ih _ (step_modified_mono env dock st s h)

theorem foldl_modified_false_part (env : SEnv) (dock : Option (String → Option ℚ))
    (keys : List String) (st : LoopState) :
    (keys.foldl (computeStep env dock) st).cache_modified = false →
    (keys.foldl (computeStep env dock) st).part = st.part := by
  induction keys generalizing st with
  | nil => intro _; rfl
  | cons s rest ih =>
      intro h
      rw [List.foldl_cons] at h ⊢
      cases hs : dfind st.part s with
      | some w =>
          have hp : (computeStep env dock st s).part = st.part := by
            simp [computeStep, hs]
          rw [ih _ h, hp]
      | none =>
          by_cases hvs : env.valid s
          · exfalso
            have hmod : (computeStep env dock st s).cache_modified = true := by
              simp [computeStep, hs, hvs]
            have hfin := foldl_modified_mono env dock rest _ hmod
            rw [h] at hfin
            cases hfin
          · have hp : (computeStep env dock st s).part = st.part := by
              simp [computeStep, hs, hvs]
            rw [ih _ h, hp]

theorem step_hits_mono (env : SEnv) (dock : Option (String → Option ℚ))
    (st : LoopState) (s k : String) (h : k ∈ st.hits) :
    k ∈ (computeStep env dock st s).hits := by
  cases hs : dfind st.part s with
  | some w =>
      simp only [computeStep, hs]
      exact List.mem_append.mpr (Or.inl h)
  | none =>
      by_cases hvs : env.valid s
      · simpa [computeStep, hs, hvs] using h
      · simpa [computeStep, hs, hvs] using h

theorem foldl_hits_mono (env : SEnv) (dock : Option (String → Option ℚ))
    (keys : List String) (st : LoopState) (k : String) (h : k ∈ st.hits) :
    k ∈ (keys.foldl (computeStep env dock) st).hits := by
  induction keys generalizing st with
  | nil => simpa using h
  | cons s rest ih => exact ih _ (step_hits_mono env dock st s k h)

theorem foldl_coverage (env : SEnv) (dock : Option (String → Option ℚ))
    (keys : List String) (st : LoopState) :
    ∀ k ∈ keys,
      (dfind ((keys.foldl (computeStep env dock) st)).part k).isSome = true
        ∨ env.valid k = false := by
  induction keys generalizing st with
  | nil => intro k hk; cases hk
  | cons s rest ih =>
      intro k hk
      rw [List.foldl_cons]
      rcases List.mem_cons.mp hk with he | hm
      · subst he
        cases hs : dfind st.part k with
        | some w =>
            left
            have h2 : dfind (computeStep env dock st k).part k = some w :=
              step_part_persist env dock st k k w hs
            have h3 := foldl_part_persist env dock rest _ k w h2
            simp [h3]
        | none =>
            by_cases hvk : env.valid k
            · left
              have h2 : dfind (computeStep env dock st k).part k
                  = some (JVal.num (fresh_score env dock k)) := by
                simp [computeStep, hs, hvk, dfind_dinsert_self]
              have h3 := foldl_part_persist env dock rest _ k _ h2
              simp [h3]
            · right
              simpa using hvk
      · exact ih _ k hm

theorem foldl_freeze (env : SEnv) (dock : Option (String → Option ℚ))
    (keys : List String) (st : LoopState) :
    (∀ k ∈ keys, (dfind st.part k).isSome = true ∨ env.valid k = false) →
    (keys.foldl (computeStep env dock) st).part = st.part
    ∧ (keys.foldl (computeStep env dock) st).cache_modified = st.cache_modified
    ∧ (keys.foldl (computeStep env dock) st).backendCalls = st.backendCalls
    ∧ ∀ k ∈ keys, env.valid k = true →
        k ∈ (keys.foldl (computeStep env dock) st).hits := by
  induction keys generalizing st with
  | nil =>
      intro _
      exact ⟨rfl, rfl, rfl, fun k hk => absurd hk (List.not_mem_nil k)⟩
  | cons s rest ih =>
      intro H
      rw [List.foldl_cons]
      cases hs : dfind st.part s with
      | some w =>
          have hstep : computeStep env dock st s
              = { st with results := dinsert st.results s w, hits := st.hits ++ [s] } := by
            simp [computeStep, hs]
          have Hrest : ∀ k ∈ rest,
              (dfind (computeStep env dock st s).part k).isSome = true
                ∨ env.valid k = false := by
            intro k hk
            rw [hstep]
            exact H k (List.mem_cons_of_mem s hk)
          obtain ⟨e1, e2, e3, e4⟩ := ih _ Hrest
          refine ⟨?_, ?_, ?_, ?_⟩
          · rw [e1, hstep]
          · rw [e2, hstep]
          · rw [e3, hstep]
          · intro k hk hvk
            rcases List.mem_cons.mp hk with he | hm
            · subst he
              apply foldl_hits_mono
              rw [hstep]
              exact List.mem_append.mpr (Or.inr (List.mem_singleton.mpr rfl))
            · exact e4 k hm hvk
      | none =>
          have hinv : env.valid s = false := by
            rcases H s (List.mem_cons_self s rest) with hsome | hf
            · rw [hs] at hsome
              cases hsome
            · exact hf
          have hstep : computeStep env dock st s
              = { st with results := dinsert st.results s JVal.null } := by
            simp [computeStep, hs, hinv]
          have Hrest : ∀ k ∈ rest,
              (dfind (computeStep env dock st s).part k).isSome = true
                ∨ env.valid k = false := by
            intro k hk
            rw [hstep]
            exact H k (List.mem_cons_of_mem s hk)
          obtain ⟨e1, e2, e3, e4⟩ := ih _ Hrest
          refine ⟨?_, ?_, ?_, ?_⟩
          · rw [e1, hstep]
          · rw [e2, hstep]
          · rw [e3, hstep]
          · intro k hk hvk
            rcases List.mem_cons.mp hk with he | hm
            · subst he
              rw [hvk] at hinv
              cases hinv
            · exact e4 k hm hvk

theorem compute_scores_eq (env : SEnv) (store : Store) (keys : List String)
    (t : String) :
    compute_scores env store keys t
      = { results := (runLoop env store keys t).results,
          store := if (runLoop env store keys t).cache_modified
                   then dinsert store t (runLoop env store keys t).part
                   else store,
          loads := 1,
          wrote := (runLoop env store keys t).cache_modified,
          backendCalls := (runLoop env store keys t).backendCalls,
          hits := (runLoop env store keys t).hits } := rfl

theorem compute_partition (env : SEnv) (store : Store) (keys : List String)
    (t : String) :
    partOf (compute_scores env store keys t).store t
      = (runLoop env store keys t).part := by
  rw [compute_scores_eq]
  cases hm : (runLoop env store keys t).cache_modified with
  | false =>
      simp only [hm, Bool.false_eq_true, if_false]
      have := foldl_modified_false_part env (dockFor env t) keys
        ⟨partOf store t, [], false, [], []⟩ hm
      exact this.symm
  | true =>
      simp only [hm, if_true]
      simp [partOf, dfind_dinsert_self]

theorem foldl_part_new_num (env : SEnv) (dock : Option (String → Option ℚ))
    (keys : List String) (st : LoopState) (k : String) (v : JVal) :
    dfind st.part k = none →
    dfind ((keys.foldl (computeStep env dock) st)).part k = some v →
    ∃ q : ℚ, v = JVal.num q := by
  induction keys generalizing st with
  | nil =>
      intro h1 h2
      rw [List.foldl_nil, h1] at h2
      cases h2
  | cons s rest ih =>
      intro h1 h2
      rw [List.foldl_cons] at h2
      cases hs : dfind (computeStep env dock st s).part k with
      | none => exact ih _ hs h2
      | some w =>
          have hw : ∃ q : ℚ, w = JVal.num q := by
            cases hps : dfind st.part s with
            | some u =>
                have hpe : (computeStep env dock st s).part = st.part := by
                  simp [computeStep, hps]
                rw [hpe, h1] at hs
                cases hs
            | none =>
                by_cases hvs : env.valid s
                · by_cases hks : k = s
                  · subst hks
                    have he : dfind (computeStep env dock st k).part k
                        = some (JVal.num (fresh_score env dock k)) := by
                      simp [computeStep, hps, hvs, dfind_dinsert_self]
                    rw [he] at hs
                    exact ⟨_, (Option.some_inj.mp hs).symm⟩
                  · have he : dfind (computeStep env dock st s).part k
                        = dfind st.part k := by
                      simp [computeStep, hps, hvs, dfind_dinsert_ne _ _ _ _ hks]
                    rw [he, h1] at hs
                    cases hs
                · have hpe : (computeStep env dock st s).part = st.part := by
                    simp [computeStep, hps, hvs]
                  rw [hpe, h1] at hs
                  cases hs
          have hp := foldl_part_persist env dock rest _ k w hs
          rw [hp] at h2
          obtain ⟨q, hq⟩ := hw
          exact ⟨q, by rw [← Option.some_inj.mp h2, hq]⟩

theorem foldl_cached_length (part : Dict JVal) (molecules : List String)
    (acc : Dict JVal) :
    (molecules.foldl (fun acc mol =>
      match dfind part mol with
      | some v => dinsert acc mol v
      | none => acc) acc).length ≤ acc.length + molecules.length := by
  induction molecules generalizing acc with
  | nil => simp
  | cons m rest ih =>
      rw [List.foldl_cons]
      cases hpm : dfind part m with
      | some v =>
          simp only [hpm]
          have h1 := ih (dinsert acc m v)
          have h2 := length_dinsert_le acc m v
          simp only [List.length_cons]
          omega
      | none =>
          simp only [hpm]
          have h1 := ih acc
          simp only [List.length_cons]
          omega

theorem get_cached_results_length_le (store : Store) (molecules : List String)
    (target : Option String) :
    (get_cached_results store molecules target).length ≤ molecules.length := by
  unfold get_cached_results
  cases dfind store (target_key target) with
  | none => simp
  | some part =>
      have h := foldl_cached_length part molecules []
      simpa using h

/-- C8: for every process hash function and every SMILES string, the
deterministic fallback score `generate_mock_score` lies within the
illustrative scoring range, i.e. in the interval [-12.0, -3.0]. -/
theorem mock_score_within_range (pyHash : String → Int) (smiles : String) :
    -12 ≤ generate_mock_score pyHash smiles
      ∧ generate_mock_score pyHash smiles ≤ -3 := by
  have h0 : (0 : ℤ) ≤ pyHash smiles % 1000 := Int.emod_nonneg _ (by norm_num)
  have h1 : pyHash smiles % 1000 < 1000 := Int.emod_lt_of_pos _ (by norm_num)
  unfold generate_mock_score
  set hv : ℤ := pyHash smiles % 1000 with hhv
  have hq0 : (0 : ℚ) ≤ (hv : ℚ) := by exact_mod_cast h0
  have hq1 : (hv : ℚ) ≤ 999 := by
    have h2 : hv ≤ 999 := by omega
    exact_mod_cast h2
  set x : ℚ := (-3 - (hv : ℚ) / 1000 * 9) * 10 with hx
  have hexp : x = -30 - (hv : ℚ) * (9 / 100) := by rw [hx]; ring
  have hxlo : -11991 / 100 ≤ x := by rw [hexp]; linarith
  have hxhi : x ≤ -30 := by rw [hexp]; linarith
  have hrlo : (-120 : ℤ) ≤ round x := by
    rw [round_eq]
    apply Int.le_floor.mpr
    push_cast
    linarith
  have hrhi : round x ≤ -30 := by
    rw [round_eq]
    have h3 : ⌊x + 1 / 2⌋ < -29 := Int.floor_lt.mpr (by push_cast; linarith)
    omega
  have hc1 : ((-120 : ℤ) : ℚ) ≤ ((round x : ℤ) : ℚ) := by exact_mod_cast hrlo
  have hc2 : ((round x : ℤ) : ℚ) ≤ ((-30 : ℤ) : ℚ) := by exact_mod_cast hrhi
  constructor
  · push_cast at hc1
    linarith
  · push_cast at hc2
    linarith

/-- C3 (code-bug evaluation): the fallback score is derived from
Python's builtin string hash, which is salted per process
(PYTHONHASHSEED), so two process runs whose hash functions map "CCO"
to the residues 0 and 500 produce different fallback scores for the
same SMILES: the fallback is not stable across process restarts. -/
theorem mock_score_depends_on_process_hash :
    generate_mock_score (fun _ => 0) "CCO" = -3
    ∧ generate_mock_score (fun _ => 500) "CCO" = -15 / 2
    ∧ generate_mock_score (fun _ => 0) "CCO"
        ≠ generate_mock_score (fun _ => 500) "CCO" := by
  have e1 : generate_mock_score (fun _ => 0) "CCO" = -3 := by
    show ((round (((-3 : ℚ) - (((0 : ℤ) % 1000 : ℤ) : ℚ) / 1000 * 9) * 10) : ℤ) : ℚ) / 10
        = -3
    have h : ((0 : ℤ) % 1000 : ℤ) = 0 := by decide
    rw [h]
    have h2 : ((-3 : ℚ) - ((0 : ℤ) : ℚ) / 1000 * 9) * 10 = ((-30 : ℤ) : ℚ) := by
      push_cast
      ring
    rw [h2, round_intCast]
    norm_num
  have e2 : generate_mock_score (fun _ => 500) "CCO" = -15 / 2 := by
    show ((round (((-3 : ℚ) - (((500 : ℤ) % 1000 : ℤ) : ℚ) / 1000 * 9) * 10) : ℤ) : ℚ) / 10
        = -15 / 2
    have h : ((500 : ℤ) % 1000 : ℤ) = 500 := by decide
    rw [h]
    have h2 : ((-3 : ℚ) - ((500 : ℤ) : ℚ) / 1000 * 9) * 10 = ((-75 : ℤ) : ℚ) := by
      push_cast
      ring
    rw [h2, round_intCast]
    norm_num
  refine ⟨e1, e2, ?_⟩
  rw [e1, e2]
  norm_num

/-- C9: `get_cache_hit_rate` is total and division-safe; it returns
exactly 0 for an empty molecule list, and a value in [0, 1] (the
fraction of the requested molecules found in the target partition) for
every non-empty list. -/
theorem cache_hit_rate_total_and_bounded (store : Store)
    (molecules : List String) (target : Option String) :
    (molecules = [] → get_cache_hit_rate store molecules target = 0)
    ∧ (molecules ≠ [] →
        0 ≤ get_cache_hit_rate store molecules target
        ∧ get_cache_hit_rate store molecules target ≤ 1) := by
  constructor
  · intro h
    simp [get_cache_hit_rate, h]
  · intro h
    rw [get_cache_hit_rate, if_neg h]
    have hlen : 0 < molecules.length := List.length_pos.mpr h
    have hq : (0 : ℚ) < (molecules.length : ℚ) := by exact_mod_cast hlen
    constructor
    · apply div_nonneg <;> positivity
    · rw [div_le_one hq]
      exact_mod_cast get_cached_results_length_le store molecules target

/-- Witness for C9 at concrete inputs: the hit rate of an empty store
is 0 for no molecules and nonnegative for one molecule. -/
theorem cache_hit_rate_total_and_bounded_witness :
    get_cache_hit_rate [] [] none = 0
    ∧ 0 ≤ get_cache_hit_rate [] ["CCO"] none :=
  ⟨(cache_hit_rate_total_and_bounded [] [] none).1 rfl,
   ((cache_hit_rate_total_and_bounded [] ["CCO"] none).2 (by decide)).1⟩

/-- C7 (amended): an empty batch returns the empty mapping, performs no
write and leaves the document unchanged, but the call still loads the
persisted document once — `compute_scores` calls `_load_cache`
unconditionally before inspecting the batch. -/
theorem compute_scores_empty_batch (env : SEnv) (store : Store) (t : String) :
    (compute_scores env store [] t).results = []
    ∧ (compute_scores env store [] t).wrote = false
    ∧ (compute_scores env store [] t).store = store
    ∧ (compute_scores env store [] t).loads = 1 :=
  ⟨rfl, rfl, rfl, rfl⟩

/-- Counterexample to C7 as stated: even for an empty key list the call
performs one load of the persisted cache document, so "no cache access"
is false (the returned mapping is empty and nothing is written, but the
load count is 1, not 0). -/
theorem compute_scores_empty_batch_cex :
    (compute_scores envW [] [] "TGT1").loads = 1
    ∧ (compute_scores envW [] [] "TGT1").loads ≠ 0
    ∧ (compute_scores envW [] [] "TGT1").results = []
    ∧ (compute_scores envW [] [] "TGT1").wrote = false :=
  ⟨rfl, by decide, rfl, rfl⟩

/-- C1 (amended): every key newly scored by `compute_scores` is
persisted in the cache document as a bare numeric score (the same value
returned for that key), not as a `{score, timestamp, computed}` record;
such records are written only by `CacheTool.save_results`, which
`compute_scores` never invokes. -/
theorem compute_scores_persists_bare_scores (env : SEnv) (store : Store)
    (keys : List String) (t k : String) (hk : k ∈ keys)
    (hv : env.valid k = true) (hc : dfind (partOf store t) k = none) :
    ∃ q : ℚ,
      dfind (partOf (compute_scores env store keys t).store t) k
          = some (JVal.num q)
      ∧ dfind (compute_scores env store keys t).results k
          = some (JVal.num q) := by
  have hpart := compute_partition env store keys t
  have hcov := foldl_coverage env (dockFor env t) keys
    ⟨partOf store t, [], false, [], []⟩ k hk
  rcases hcov with hsome | hf
  · obtain ⟨v, hsv⟩ := Option.isSome_iff_exists.mp hsome
    obtain ⟨q, hq⟩ := foldl_part_new_num env (dockFor env t) keys
      ⟨partOf store t, [], false, [], []⟩ k v hc hsv
    refine ⟨q, ?_, ?_⟩
    · rw [hpart]
      rw [show runLoop env store keys t
          = keys.foldl (computeStep env (dockFor env t))
              ⟨partOf store t, [], false, [], []⟩ from rfl]
      rw [hsv, hq]
    · have hres := foldl_results_mem env (dockFor env t) keys
        ⟨partOf store t, [], false, [], []⟩ k hk
      rw [compute_scores_eq]
      rw [show runLoop env store keys t
          = keys.foldl (computeStep env (dockFor env t))
              ⟨partOf store t, [], false, [], []⟩ from rfl]
      rw [hres, valOf, hsv]
      rw [hq]
      rfl
  · rw [hv] at hf
    cases hf

/-- Witness for C1's amended theorem: a fresh valid key in an empty
store is persisted and returned as a bare numeric value. -/
theorem compute_scores_persists_bare_scores_witness :
    ∃ q : ℚ,
      dfind (partOf (compute_scores envW [] ["CCO"] "TGT1").store "TGT1") "CCO"
          = some (JVal.num q)
      ∧ dfind (compute_scores envW [] ["CCO"] "TGT1").results "CCO"
          = some (JVal.num q) :=
  compute_scores_persists_bare_scores envW [] ["CCO"] "TGT1" "CCO"
    (by decide) rfl rfl

/-- Counterexample to C1 as stated: the value persisted for a newly
scored key is a bare `JVal.num`, whose record flag is false and which
carries no timestamp — not the `{score, timestamp, computed: true}`
record the claim describes. -/
theorem compute_scores_persists_bare_scores_cex :
    dfind (partOf (compute_scores envW [] ["CCO"] "TGT1").store "TGT1") "CCO"
        = some (JVal.num (fresh_score envW (dockFor envW "TGT1") "CCO"))
    ∧ (dfind (partOf (compute_scores envW [] ["CCO"] "TGT1").store "TGT1") "CCO").map
          JVal.isRecord = some false
    ∧ (dfind (partOf (compute_scores envW [] ["CCO"] "TGT1").store "TGT1") "CCO").map
          JVal.timestampOf = some none :=
  ⟨rfl, rfl, rfl⟩

/-- C5: a key that fails structure validation and is not already cached
is resolved to null in the returned mapping, never reaches the scoring
backend, and is never written into the cache partition. -/
theorem compute_scores_invalid_key_skipped (env : SEnv) (store : Store)
    (keys : List String) (t k : String) (hk : k ∈ keys)
    (hv : env.valid k = false) (hc : dfind (partOf store t) k = none) :
    dfind (compute_scores env store keys t).results k = some JVal.null
    ∧ k ∉ (compute_scores env store keys t).backendCalls
    ∧ dfind (partOf (compute_scores env store keys t).store t) k = none := by
  have hpn : dfind ((keys.foldl (computeStep env (dockFor env t))
      ⟨partOf store t, [], false, [], []⟩)).part k = none :=
    foldl_part_invalid env (dockFor env t) keys
      ⟨partOf store t, [], false, [], []⟩ k hv hc
  refine ⟨?_, ?_, ?_⟩
  · have hres := foldl_results_mem env (dockFor env t) keys
      ⟨partOf store t, [], false, [], []⟩ k hk
    exact hres.trans (by rw [valOf, hpn]; rfl)
  · exact foldl_backend_invalid env (dockFor env t) keys
      ⟨partOf store t, [], false, [], []⟩ k hv (List.not_mem_nil k)
  · exact (compute_partition env store keys t).symm ▸ hpn

/-- Witness for C5: the invalid SMILES "xx" in a fresh store resolves
to null, triggers no backend call and is not cached. -/
theorem compute_scores_invalid_key_skipped_witness :
    dfind (compute_scores envX [] ["xx", "CCO"] "TGT1").results "xx"
        = some JVal.null
    ∧ "xx" ∉ (compute_scores envX [] ["xx", "CCO"] "TGT1").backendCalls
    ∧ dfind (partOf (compute_scores envX [] ["xx", "CCO"] "TGT1").store "TGT1") "xx"
        = none :=
  compute_scores_invalid_key_skipped envX [] ["xx", "CCO"] "TGT1" "xx"
    (by decide) rfl rfl

/-- C6: a batch in which every requested key is already present in the
target partition triggers no save, and the persisted document is
returned unchanged. -/
theorem compute_scores_full_hit_no_write (env : SEnv) (store : Store)
    (keys : List String) (t : String)
    (H : ∀ k ∈ keys, (dfind (partOf store t) k).isSome = true) :
    (compute_scores env store keys t).wrote = false
    ∧ (compute_scores env store keys t).store = store := by
  obtain ⟨f1, f2, f3, f4⟩ := foldl_freeze env (dockFor env t) keys
    ⟨partOf store t, [], false, [], []⟩ (fun k hk => Or.inl (H k hk))
  constructor
  · exact f2
  · show (if (keys.foldl (computeStep env (dockFor env t))
        ⟨partOf store t, [], false, [], []⟩).cache_modified
        then dinsert store t (keys.foldl (computeStep env (dockFor env t))
          ⟨partOf store t, [], false, [], []⟩).part
        else store) = store
    rw [f2]
    rfl

/-- Witness for C6: a single-key batch that is already cached writes
nothing and leaves the document identical. -/
theorem compute_scores_full_hit_no_write_witness :
    (compute_scores envW [("TGT1", [("CCO", JVal.num (-3))])] ["CCO"] "TGT1").wrote
        = false
    ∧ (compute_scores envW [("TGT1", [("CCO", JVal.num (-3))])] ["CCO"] "TGT1").store
        = [("TGT1", [("CCO", JVal.num (-3))])] :=
  compute_scores_full_hit_no_write envW [("TGT1", [("CCO", JVal.num (-3))])]
    ["CCO"] "TGT1" (by intro k hk; simp at hk; subst hk; rfl)

/-- C10: a key already present in the target partition is returned
verbatim from the cache, whatever the shape of the stored value — a
record written by `CacheTool.save_results` comes back as that record,
a bare number written by `compute_scores` comes back as a number. -/
theorem compute_scores_returns_stored_verbatim (env : SEnv) (store : Store)
    (keys : List String) (t k : String) (v : JVal) (hk : k ∈ keys)
    (hc : dfind (partOf store t) k = some v) :
    dfind (compute_scores env store keys t).results k = some v := by
  have hres := foldl_results_mem env (dockFor env t) keys
    ⟨partOf store t, [], false, [], []⟩ k hk
  have hper := foldl_part_persist env (dockFor env t) keys
    ⟨partOf store t, [], false, [], []⟩ k v hc
  exact hres.trans (by rw [valOf, hper]; rfl)

/-- Witness for C10: in one store holding a record entry written by
`save_results` for "CCO" and a bare numeric entry for "CCN", a single
`compute_scores` call returns both values exactly as stored — the
caller-visible shape depends on which component wrote the entry. -/
theorem compute_scores_returns_stored_verbatim_witness :
    dfind (compute_scores envW
        (save_results "2024-05-01T00:00:00" [("TGT1", [("CCN", JVal.num (-4))])]
          [] (some "TGT1") [("CCO", some (-5))])
        ["CCO", "CCN"] "TGT1").results "CCO"
      = some (JVal.record (some (-5)) "2024-05-01T00:00:00" true)
    ∧ dfind (compute_scores envW
        (save_results "2024-05-01T00:00:00" [("TGT1", [("CCN", JVal.num (-4))])]
          [] (some "TGT1") [("CCO", some (-5))])
        ["CCO", "CCN"] "TGT1").results "CCN"
      = some (JVal.num (-4)) :=
  ⟨compute_scores_returns_stored_verbatim envW _ ["CCO", "CCN"] "TGT1" "CCO" _
      (by decide) rfl,
   compute_scores_returns_stored_verbatim envW _ ["CCO", "CCN"] "TGT1" "CCN" _
      (by decide) rfl⟩

/-- C4 (amended): repeating a `compute_scores` call with unchanged
external state returns an identical result mapping, performs zero
per-entity backend invocations and no write; every valid key of the
batch is served from cache on the second call, while invalid keys are
re-resolved to null without backend calls. -/
theorem compute_scores_idempotent (env : SEnv) (store : Store)
    (keys : List String) (t : String) :
    (∀ k, dfind (compute_scores env (compute_scores env store keys t).store
            keys t).results k
        = dfind (compute_scores env store keys t).results k)
    ∧ (compute_scores env (compute_scores env store keys t).store
          keys t).backendCalls = []
    ∧ (compute_scores env (compute_scores env store keys t).store
          keys t).wrote = false
    ∧ ∀ k ∈ keys, env.valid k = true →
        k ∈ (compute_scores env (compute_scores env store keys t).store
              keys t).hits := by
  have hpart : partOf (compute_scores env store keys t).store t
      = (keys.foldl (computeStep env (dockFor env t))
          ⟨partOf store t, [], false, [], []⟩).part :=
    compute_partition env store keys t
  have cov := foldl_coverage env (dockFor env t) keys
    ⟨partOf store t, [], false, [], []⟩
  obtain ⟨f1, f2, f3, f4⟩ := foldl_freeze env (dockFor env t) keys
    ⟨partOf (compute_scores env store keys t).store t, [], false, [], []⟩
    (by
      intro k hk
      have h := cov k hk
      rw [← hpart] at h
      exact h)
  refine ⟨?_, f3, f2, f4⟩
  intro k
  show dfind (keys.foldl (computeStep env (dockFor env t))
      ⟨partOf (compute_scores env store keys t).store t, [], false, [], []⟩).results k
    = dfind (keys.foldl (computeStep env (dockFor env t))
      ⟨partOf store t, [], false, [], []⟩).results k
  by_cases hk : k ∈ keys
  · have hr2 := foldl_results_mem env (dockFor env t) keys
      ⟨partOf (compute_scores env store keys t).store t, [], false, [], []⟩ k hk
    have hr1 := foldl_results_mem env (dockFor env t) keys
      ⟨partOf store t, [], false, [], []⟩ k hk
    rw [hr2, hr1, f1, hpart]
  · have hr2 := foldl_results_notmem env (dockFor env t) keys
      ⟨partOf (compute_scores env store keys t).store t, [], false, [], []⟩ k hk rfl
    have hr1 := foldl_results_notmem env (dockFor env t) keys
      ⟨partOf store t, [], false, [], []⟩ k hk rfl
    rw [hr2, hr1]

/-- Counterexample to C4's parenthetical "every key is a cache hit":
an invalid key is never cached, so the second call re-resolves it by
validation instead of serving it from cache — the second call's hit
list is empty although the batch is not (results are nevertheless
identical and no backend call happens). -/
theorem compute_scores_idempotent_cex :
    ("xx" : String) ∈ ["xx"]
    ∧ (compute_scores envX (compute_scores envX [] ["xx"] "TGT1").store
        ["xx"] "TGT1").hits = []
    ∧ (compute_scores envX (compute_scores envX [] ["xx"] "TGT1").store
        ["xx"] "TGT1").results
      = (compute_scores envX [] ["xx"] "TGT1").results :=
  ⟨by decide, rfl, rfl⟩

/-- Witness for C4's amended theorem at a concrete input: a repeated
single-key batch is answered identically, with no backend call, and the
valid key is a cache hit the second time. -/
theorem compute_scores_idempotent_witness :
    dfind (compute_scores envW (compute_scores envW [] ["CCO"] "TGT1").store
        ["CCO"] "TGT1").results "CCO"
      = dfind (compute_scores envW [] ["CCO"] "TGT1").results "CCO"
    ∧ (compute_scores envW (compute_scores envW [] ["CCO"] "TGT1").store
        ["CCO"] "TGT1").backendCalls = []
    ∧ "CCO" ∈ (compute_scores envW (compute_scores envW [] ["CCO"] "TGT1").store
        ["CCO"] "TGT1").hits :=
  ⟨(compute_scores_idempotent envW [] ["CCO"] "TGT1").1 "CCO",
   (compute_scores_idempotent envW [] ["CCO"] "TGT1").2.1,
   (compute_scores_idempotent envW [] ["CCO"] "TGT1").2.2.2 "CCO" (by decide) rfl⟩

/-- C2 (amended): after scoring keys A and B against a target and then
keys B and C (B already cached), the target partition contains exactly
the keys {A, B, C}, each mapped to its correct score stored as a bare
number; B is not recomputed, and its stored entry is exactly the value
from the first call, unchanged by the second call (entries carry no
timestamp that could be refreshed). -/
theorem merge_two_calls_partition (env : SEnv) (store : Store)
    (t A B C : String)
    (hvA : env.valid A = true) (hvB : env.valid B = true)
    (hvC : env.valid C = true)
    (hAB : A ≠ B) (hAC : A ≠ C) (hBC : B ≠ C)
    (hstore : dfind store t = none) :
    partOf (compute_scores env
        (compute_scores env store [A, B] t).store [B, C] t).store t
      = [(A, JVal.num (fresh_score env (dockFor env t) A)),
         (B, JVal.num (fresh_score env (dockFor env t) B)),
         (C, JVal.num (fresh_score env (dockFor env t) C))]
    ∧ dfind (partOf (compute_scores env
          (compute_scores env store [A, B] t).store [B, C] t).store t) B
        = dfind (partOf (compute_scores env store [A, B] t).store t) B := by
  have p0 : partOf store t = [] := by simp [partOf, hstore]
  have h1 : (List.foldl (computeStep env (dockFor env t))
      ⟨partOf store t, [], false, [], []⟩ [A, B]).part
      = [(A, JVal.num (fresh_score env (dockFor env t) A)),
         (B, JVal.num (fresh_score env (dockFor env t) B))] := by
    rw [p0]
    simp [List.foldl_cons, List.foldl_nil, computeStep, dfind, dinsert,
      hvA, hvB, hAB]
  have hc1 : partOf (compute_scores env store [A, B] t).store t
      = [(A, JVal.num (fresh_score env (dockFor env t) A)),
         (B, JVal.num (fresh_score env (dockFor env t) B))] :=
    (compute_partition env store [A, B] t).trans h1
  have h2 : (List.foldl (computeStep env (dockFor env t))
      ⟨partOf (compute_scores env store [A, B] t).store t, [], false, [], []⟩
      [B, C]).part
      = [(A, JVal.num (fresh_score env (dockFor env t) A)),
         (B, JVal.num (fresh_score env (dockFor env t) B)),
         (C, JVal.num (fresh_score env (dockFor env t) C))] := by
    rw [hc1]
    simp [List.foldl_cons, List.foldl_nil, computeStep, dfind, dinsert,
      hvB, hvC, hAB, hAC, hBC]
  have hc2 : partOf (compute_scores env
      (compute_scores env store [A, B] t).store [B, C] t).store t
      = [(A, JVal.num (fresh_score env (dockFor env t) A)),
         (B, JVal.num (fresh_score env (dockFor env t) B)),
         (C, JVal.num (fresh_score env (dockFor env t) C))] :=
    (compute_partition env (compute_scores env store [A, B] t).store
      [B, C] t).trans h2
  refine ⟨hc2, ?_⟩
  rw [hc2, hc1]
  simp [dfind, hAB]

/-- Counterexample to C2 as stated: after the two calls, B's stored
entry is a bare numeric value carrying no timestamp at all, so "B's
stored timestamp is the one from the first call" is false — there is no
timestamp to preserve, because `compute_scores` does not write
`{score, timestamp, computed}` records. -/
theorem merge_two_calls_no_timestamp_cex :
    dfind (partOf (compute_scores envW
        (compute_scores envW [] ["CCO", "CCN"] "TGT1").store
        ["CCN", "CCC"] "TGT1").store "TGT1") "CCN"
      = some (JVal.num (fresh_score envW (dockFor envW "TGT1") "CCN"))
    ∧ (dfind (partOf (compute_scores envW
        (compute_scores envW [] ["CCO", "CCN"] "TGT1").store
        ["CCN", "CCC"] "TGT1").store "TGT1") "CCN").map JVal.timestampOf
      = some none :=
  ⟨rfl, rfl⟩

/-- Witness for C2's amended theorem with the three example molecules
against a fresh store. -/
theorem merge_two_calls_partition_witness :
    partOf (compute_scores envW
        (compute_scores envW [] ["CCO", "CCN"] "TGT1").store
        ["CCN", "CCC"] "TGT1").store "TGT1"
      = [("CCO", JVal.num (fresh_score envW (dockFor envW "TGT1") "CCO")),
         ("CCN", JVal.num (fresh_score envW (dockFor envW "TGT1") "CCN")),
         ("CCC", JVal.num (fresh_score envW (dockFor envW "TGT1") "CCC"))]
    ∧ dfind (partOf (compute_scores envW
          (compute_scores envW [] ["CCO", "CCN"] "TGT1").store
          ["CCN", "CCC"] "TGT1").store "TGT1") "CCN"
        = dfind (partOf (compute_scores envW [] ["CCO", "CCN"] "TGT1").store
            "TGT1") "CCN" :=
  merge_two_calls_partition envW [] "TGT1" "CCO" "CCN" "CCC"
    rfl rfl rfl (by decide) (by decide) (by decide) rfl

end MolAgent
